import Mathlib

/-!
Verification of `container/conductor/utils.py` (ansible-container).

The Python module is shallowly embedded here:

* Byte strings (Python 2 `str`) are modelled as `List Char` (`Bytes`).
* `hashlib.sha256` is modelled abstractly as an injective function of the
  byte stream fed to it through `update`; a "digest" in this development is
  therefore the concatenated update stream itself, and digest equality is
  stream equality.
* The filesystem seen by `os.walk` is an `FSTree`: at each directory, the
  list order of `files` and `dirs` is the enumeration order the operating
  system happens to return (the code never sorts it).
* `yaml.safe_load` of a role's `meta/main.yml`, combined with the
  `dependencies`/`role` key extraction of `get_dependencies_for_role`, is
  modelled by `MetaDoc`: either a parsed list of dependency entries (each
  entry's `role` value, `none` when the key is absent) or a malformed
  document, which makes the parser raise.
* The unbounded recursion of `hash_role` is modelled with explicit fuel:
  `none` means the computation did not finish within the given fuel, so
  "the real recursion terminates" corresponds to "some fuel returns `some`".
-/

set_option autoImplicit false

abbrev Bytes := List Char

/-- `os.path.join a b` for a relative second component: `a ++ "/" ++ b`. -/
def pathJoin (a b : Bytes) : Bytes := a ++ '/' :: b

/-- The `'::'` field separator fed to the hash after every path and block. -/
def sep : Bytes := [':', ':']

/-- `blocksize = 64 * 1024` from `hash_file`. -/
def blocksize : Nat := 64 * 1024

/-- Fueled block loop of `hash_file`: emit the stream
`block ++ "::" ++ ...` for each `blocksize`-sized read.  The fuel is only
a structural-recursion device; `hash_file` always supplies `data.length`,
which is enough because every iteration consumes at least one character. -/
def hashFileGo : Nat → Bytes → Bytes
  | _, [] => []
  | 0, _ => []
  | fuel + 1, data =>
      data.take blocksize ++ sep ++ hashFileGo fuel (data.drop blocksize)

/-- Stream contribution of `hash_file(hash_obj, file_path)` for a file whose
contents are `data`: each block read is fed to the hash followed by `'::'`. -/
def hash_file (data : Bytes) : Bytes :=
  hashFileGo data.length data

/-- A directory tree as enumerated by the operating system.  The order of
`files` and `dirs` is the (arbitrary, unsorted) order `os.walk` yields. -/
inductive FSTree where
  | node (files : List (Bytes × Bytes)) (dirs : List (Bytes × FSTree))

mutual

/-- `os.walk(dir_path, topdown=True)` flattened to the sequence of
`(absolute file path, contents)` pairs in the order the loop in `hash_dir`
visits them: the top directory's files first, then each subdirectory
depth-first, in enumeration order. -/
def walk (dirPath : Bytes) : FSTree → List (Bytes × Bytes)
  | FSTree.node files dirs =>
      files.map (fun fc => (pathJoin dirPath fc.1, fc.2)) ++ walkDirs dirPath dirs

def walkDirs (dirPath : Bytes) : List (Bytes × FSTree) → List (Bytes × Bytes)
  | [] => []
  | sub :: rest => walk (pathJoin dirPath sub.1) sub.2 ++ walkDirs dirPath rest

end

/-- The hash stream produced by the body of `hash_dir`'s loop for a list of
`(absolute path, contents)` pairs: `update(abs_file_path); update('::');
hash_file(...)` for each file. -/
def hashEntries (entries : List (Bytes × Bytes)) : Bytes :=
  entries.flatMap (fun e => e.1 ++ sep ++ hash_file e.2)

/-- `hash_dir(hash_obj, dir_path)`: walk the tree and hash every file's
absolute path and contents. -/
def hash_dir (dirPath : Bytes) (t : FSTree) : Bytes :=
  hashEntries (walk dirPath t)

/-- Result of `yaml.safe_load` on `meta/main.yml` composed with the
`dependencies` / `role` extraction of `get_dependencies_for_role`:
`parsed entries` lists, for each dependency entry, its `role` value
(`none` when the entry has no `role` key); `malformed` means the parser
raises a `ParseError`. -/
inductive MetaDoc where
  | parsed (entries : List (Option Bytes))
  | malformed
  deriving DecidableEq

/-- The external collaborators of the fingerprint computation: the tree at
each directory path, the dependency document at each role path, and the
role-name-to-path resolver (`resolve_role_to_path`, an Ansible API). -/
structure FS where
  roleAt : Bytes → FSTree
  metaAt : Bytes → MetaDoc
  resolve : Bytes → Bytes

/-- `resolve_role_to_path(role_name)` (external resolver). -/
def resolve_role_to_path (fs : FS) (role_name : Bytes) : Bytes :=
  fs.resolve role_name

/-- `get_dependencies_for_role(role_path)`: parse `meta/main.yml` and
extract each entry's `role` value. -/
def get_dependencies_for_role (fs : FS) (role_path : Bytes) : MetaDoc :=
  fs.metaAt role_path

/-- Outcome of a terminating `hash_role` call: the digest stream, or the
`ParseError` raised by a malformed dependency document. -/
inductive HashOut where
  | ok (digest : Bytes)
  | parseError
  deriving DecidableEq

/-- `none` = the recursion did not finish within the fuel. -/
abbrev HRes := Option HashOut

/-- The dependency loop of `hash_role`: for each yielded dependency value,
`if dependency:` skips `None` and empty names; otherwise the dependency is
resolved and recursively hashed into the running digest `acc` by `sub`. -/
def hash_deps (sub : Bytes → HRes) : List (Option Bytes) → Bytes → HRes
  | [], acc => some (HashOut.ok acc)
  | none :: rest, acc => hash_deps sub rest acc
  | some name :: rest, acc =>
      if name = [] then hash_deps sub rest acc
      else
        match sub name with
        | none => none
        | some HashOut.parseError => some HashOut.parseError
        | some (HashOut.ok s) => hash_deps sub rest (acc ++ s)

/-- `hash_role(hash_obj, role_path)` with explicit fuel: hash the role's
directory, then hash every (named) dependency recursively into the same
running digest. A malformed dependency document raises (`parseError`). -/
def hash_role (fs : FS) : Nat → Bytes → HRes
  | 0, _ => none
  | fuel + 1, role_path =>
      match get_dependencies_for_role fs role_path with
      | MetaDoc.malformed => some HashOut.parseError
      | MetaDoc.parsed entries =>
          hash_deps (fun name => hash_role fs fuel (fs.resolve name)) entries
            (hash_dir role_path (fs.roleAt role_path))

/-- `get_role_fingerprint(role_name)`: resolve the role and hash it; the
returned hex digest is modelled by the hash stream itself (SHA-256 is
modelled as injective). -/
def get_role_fingerprint (fs : FS) (fuel : Nat) (role_name : Bytes) : HRes :=
  hash_role fs fuel (resolve_role_to_path fs role_name)

/-! ## `metadata_to_image_config` and its helpers -/

/-- A Python value as it appears in the service metadata and the image
config.  `pyset l` models a dict mapping each key of `l` to `{}` (the shape
of `ExposedPorts` and `Volumes`); `pydict` a dict of strings.  The
translators are modelled on the value shapes the program actually feeds
them (a wrongly-typed value makes the Python raise, which no claim
exercises); on other shapes they return the value unchanged. -/
inductive PyVal where
  | pynone
  | pystr (s : Bytes)
  | pylist (l : List Bytes)
  | pydict (l : List (Bytes × Bytes))
  | pyset (l : List Bytes)
  deriving DecidableEq

/-- `s.split(c)` (split on every occurrence of `c`, keeping empty parts). -/
def splitOnChar (c : Char) : Bytes → List Bytes
  | [] => [[]]
  | x :: xs =>
      match splitOnChar c xs with
      | [] => [[x]]
      | h :: t => if x = c then [] :: h :: t else (x :: h) :: t

/-- `port_spec.rsplit(':')[-1]`: the part after the last colon. -/
def afterLastColon (s : Bytes) : Bytes :=
  (splitOnChar ':' s).getLastD []

/-- `s.split('-', 1)`: the part before the first dash and the rest. -/
def splitFirstDash (s : Bytes) : Bytes × Bytes :=
  match splitOnChar '-' s with
  | [] => (s, [])
  | [a] => (a, [])
  | a :: rest => (a, List.intercalate ['-'] rest)

/-- `int(s)` for the decimal numerals the port code feeds it (on anything
else the Python raises, which no claim exercises). -/
def pyInt (s : Bytes) : Nat :=
  s.foldl (fun n c => n * 10 + (c.toNat - '0'.toNat)) 0

/-- `str(n)` for a natural number. -/
def pyStr (n : Nat) : Bytes := (Nat.repr n).toList

/-- `d[k] = {}` on a Python dict modelled as its key list: inserting an
existing key leaves the key order unchanged. -/
def dictInsert (d : List Bytes) (k : Bytes) : List Bytes :=
  if k ∈ d then d else d ++ [k]

/-- `ports_to_exposed_ports(list_of_ports)`: for each spec take the part
after the last colon; a `low-high` range inserts one key per port of the
inclusive range, anything else is inserted as a single key. -/
def ports_to_exposed_ports (list_of_ports : List Bytes) : List Bytes :=
  list_of_ports.foldl
    (fun to_return port_spec =>
      let exposed_ports := afterLastColon port_spec
      if '-' ∈ exposed_ports then
        let lh := splitFirstDash exposed_ports
        (List.range (pyInt lh.2 + 1 - pyInt lh.1)).foldl
          (fun acc i => dictInsert acc (pyStr (pyInt lh.1 + i))) to_return
      else dictInsert to_return exposed_ports)
    []

/-- `format_environment(environment)`: a dict serializes to `KEY=VALUE`
entries; anything else is returned unchanged. -/
def format_environment : PyVal → PyVal
  | PyVal.pydict l => PyVal.pylist (l.map (fun kv => kv.1 ++ '=' :: kv.2))
  | v => v

/-- `v.split()[0]`: first whitespace-delimited token (for the nonempty
tokens the program feeds it; an all-whitespace value makes Python raise). -/
def firstToken (s : Bytes) : Bytes :=
  (s.dropWhile Char.isWhitespace).takeWhile (fun c => ¬ c.isWhitespace)

/-- The `ports` translator as used in the dispatch table. -/
def portsTranslator : PyVal → PyVal
  | PyVal.pylist l => PyVal.pyset (ports_to_exposed_ports l)
  | v => v

/-- The `volumes` translator: `{parts[0]: {} for parts in [v.split() ...]}`. -/
def volumesTranslator : PyVal → PyVal
  | PyVal.pylist l => PyVal.pyset (l.map firstToken)
  | v => v

/-- The fixed-shape image configuration record built by
`metadata_to_image_config`. -/
structure ImageConfig where
  Hostname : PyVal
  Domainname : PyVal
  User : PyVal
  ExposedPorts : PyVal
  Env : PyVal
  Cmd : PyVal
  WorkingDir : PyVal
  Entrypoint : PyVal
  Volumes : PyVal
  Labels : PyVal
  OnBuild : PyVal
  deriving DecidableEq

/-- Python dict lookup on the metadata mapping (first match). -/
def lookupMeta (m : List (Bytes × PyVal)) (k : Bytes) : Option PyVal :=
  match m with
  | [] => none
  | (k', v) :: rest => if k' = k then some v else lookupMeta rest k

/-- One step of the `TRANSLATORS` loop: if the source key is present,
translate its value; otherwise the config keeps the default. -/
def fromMeta (m : List (Bytes × PyVal)) (key : Bytes) (translator : PyVal → PyVal)
    (dflt : PyVal) : PyVal :=
  match lookupMeta m key with
  | some v => translator v
  | none => dflt

/-- The source keys of the static `TRANSLATORS` table. -/
def translatorKeys : List Bytes :=
  ["hostname".toList, "domainname".toList, "user".toList, "ports".toList,
   "environment".toList, "command".toList, "working_dir".toList,
   "entrypoint".toList, "volumes".toList, "labels".toList, "onbuild".toList]

/-- `metadata_to_image_config(metadata)`: start from the documented default
config and overwrite each target field whose source key is present, through
its translator (the iteration order over `TRANSLATORS` is irrelevant
because every source key writes a distinct target field). -/
def metadata_to_image_config (metadata : List (Bytes × PyVal)) : ImageConfig where
  Hostname := fromMeta metadata ("hostname".toList) id (PyVal.pystr [])
  Domainname := fromMeta metadata ("domainname".toList) id (PyVal.pystr [])
  User := fromMeta metadata ("user".toList) id (PyVal.pystr [])
  ExposedPorts := fromMeta metadata ("ports".toList) portsTranslator (PyVal.pyset [])
  Env := fromMeta metadata ("environment".toList) format_environment (PyVal.pylist [])
  Cmd := fromMeta metadata ("command".toList) id (PyVal.pystr [])
  WorkingDir := fromMeta metadata ("working_dir".toList) id (PyVal.pystr [])
  Entrypoint := fromMeta metadata ("entrypoint".toList) id PyVal.pynone
  Volumes := fromMeta metadata ("volumes".toList) volumesTranslator (PyVal.pyset [])
  Labels := fromMeta metadata ("labels".toList) id (PyVal.pydict [])
  OnBuild := fromMeta metadata ("onbuild".toList) id (PyVal.pylist [])

/-! ## `get_content_from_role` and its wrappers -/

/-- External collaborators of the content loaders: the resolver, the
existence test, and `yaml.round_trip_load` (which may raise on a malformed
document, hence `Except`).  The parsed ordered mapping is modelled as an
association list. -/
structure ContentFS where
  resolve : Bytes → Bytes
  fileExists : Bytes → Bool
  round_trip_load : Bytes → Except Unit (List (Bytes × Bytes))

/-- `get_content_from_role(role_name, relative_path)`: parse the file when
it exists, otherwise return an empty `ordereddict` without touching it. -/
def get_content_from_role (fs : ContentFS) (role_name relative_path : Bytes) :
    Except Unit (List (Bytes × Bytes)) :=
  let role_path := fs.resolve role_name
  let metadata_file := pathJoin role_path relative_path
  if fs.fileExists metadata_file then fs.round_trip_load metadata_file
  else Except.ok []

/-- `get_metadata_from_role(role_name)`. -/
def get_metadata_from_role (fs : ContentFS) (role_name : Bytes) :
    Except Unit (List (Bytes × Bytes)) :=
  get_content_from_role fs role_name (pathJoin ("meta".toList) ("container.yml".toList))

/-- `get_defaults_from_role(role_name)`. -/
def get_defaults_from_role (fs : ContentFS) (role_name : Bytes) :
    Except Unit (List (Bytes × Bytes)) :=
  get_content_from_role fs role_name (pathJoin ("defaults".toList) ("main.yml".toList))

/-- Decoder recovering a file's contents from its `hash_file` stream; it
exists only to prove that the stream determines the contents. -/
def unhashFile (s : Bytes) : Bytes :=
  if h : s.length ≤ blocksize + 2 then s.take (s.length - 2)
  else s.take blocksize ++ unhashFile (s.drop (blocksize + 2))
termination_by s.length
decreasing_by
  simp only [List.length_drop]
  have : 1 ≤ blocksize := by decide
  omega

/-! ## The dependency graph of the recursion -/

/-- `DepStep fs p q`: the role directory at `p` declares a dependency whose
`role` name is present and nonempty and resolves to the directory `q`; these
are exactly the recursive calls `hash_role` makes from `p`. -/
def DepStep (fs : FS) (p q : Bytes) : Prop :=
  ∃ entries name, fs.metaAt p = MetaDoc.parsed entries ∧ some name ∈ entries ∧
    name ≠ [] ∧ fs.resolve name = q

/-! ## Concrete environments used as witnesses and counterexamples -/

/-- A one-file tree: `f` containing `x`. -/
def treeX : FSTree := FSTree.node [(['f'], ['x'])] []

/-- Two dependency-free roles with byte-identical trees at two different
absolute locations: role `a` resolves to `/1`, every other name to `/2`. -/
def fsLoc : FS where
  roleAt := fun _ => treeX
  metaAt := fun _ => MetaDoc.parsed []
  resolve := fun n => if n = ['a'] then ['/', '1'] else ['/', '2']

/-- Shared resolver and trees of the dependency-order example: roles `a`
(file `f` = `x`) and `b` (file `f` = `y`), root role at `/r` with no files. -/
def ordTree : Bytes → FSTree := fun p =>
  if p = ['/', 'a'] then FSTree.node [(['f'], ['x'])] []
  else if p = ['/', 'b'] then FSTree.node [(['f'], ['y'])] []
  else FSTree.node [] []

def ordResolve : Bytes → Bytes := fun n =>
  if n = ['a'] then ['/', 'a'] else if n = ['b'] then ['/', 'b'] else ['/', 'r']

/-- Root declares dependencies `[a, b]` in that order. -/
def fsOrd1 : FS where
  roleAt := ordTree
  metaAt := fun p =>
    if p = ['/', 'r'] then MetaDoc.parsed [some ['a'], some ['b']] else MetaDoc.parsed []
  resolve := ordResolve

/-- Identical to `fsOrd1` except the root declares `[b, a]`. -/
def fsOrd2 : FS where
  roleAt := ordTree
  metaAt := fun p =>
    if p = ['/', 'r'] then MetaDoc.parsed [some ['b'], some ['a']] else MetaDoc.parsed []
  resolve := ordResolve

/-- A root role at `/r` with a single dependency `d` at `/d` whose tree is
one file `f` with contents `c`: the dependency's contents are a parameter. -/
def fsDep (c : Bytes) : FS where
  roleAt := fun p => if p = ['/', 'd'] then FSTree.node [(['f'], c)] [] else FSTree.node [] []
  metaAt := fun p => if p = ['/', 'r'] then MetaDoc.parsed [some ['d']] else MetaDoc.parsed []
  resolve := fun n => if n = ['d'] then ['/', 'd'] else ['/', 'r']

/-- A dependency-free world: every role resolves to `/x`, no dependencies. -/
def fsAcyc : FS where
  roleAt := fun _ => FSTree.node [] []
  metaAt := fun _ => MetaDoc.parsed []
  resolve := fun _ => ['/', 'x']

/-- A self-referential world: every role resolves to `/x` and every
dependency document declares a dependency `c`, so `/x` depends on itself. -/
def fsCyc : FS where
  roleAt := fun _ => FSTree.node [] []
  metaAt := fun _ => MetaDoc.parsed [some ['c']]
  resolve := fun _ => ['/', 'x']

/-- A world whose every dependency document is malformed. -/
def fsBad : FS where
  roleAt := fun _ => FSTree.node [] []
  metaAt := fun _ => MetaDoc.malformed
  resolve := fun _ => ['/', 'x']

/-- A content world where no file exists and every parse would fail. -/
def cfsNone : ContentFS where
  resolve := fun _ => ['/', 'x']
  fileExists := fun _ => false
  round_trip_load := fun _ => Except.error ()

/-- A metadata mapping containing only a key outside the translation table. -/
def mEx : List (Bytes × PyVal) := [("bogus".toList, PyVal.pystr ['x'])]

/-! ## Properties of the block hashing -/

@[simp] theorem hashFileGo_nil (fuel : Nat) : hashFileGo fuel [] = [] := by
  cases fuel <;> rfl

theorem hashFileGo_succ (fuel : Nat) (x : Char) (xs : Bytes) :
    hashFileGo (fuel + 1) (x :: xs) =
      (x :: xs).take blocksize ++ sep ++ hashFileGo fuel ((x :: xs).drop blocksize) := rfl

theorem blocksize_pos : 1 ≤ blocksize := by decide

theorem hashFileGo_congr :
    ∀ (fuel : Nat) (d : Bytes) (fuel' : Nat), d.length ≤ fuel → d.length ≤ fuel' →
      hashFileGo fuel d = hashFileGo fuel' d := by
  intro fuel
  induction fuel with
  | zero =>
    intro d fuel' h _
    have : d = [] := List.eq_nil_of_length_eq_zero (Nat.le_zero.mp h)
    simp [this]
  | succ g ih =>
    intro d fuel' h h'
    cases d with
    | nil => simp
    | cons x xs =>
      cases fuel' with
      | zero => simp at h'
      | succ f' =>
        rw [hashFileGo_succ, hashFileGo_succ]
        have hlen : ((x :: xs).drop blocksize).length ≤ g := by
          rw [List.length_drop]
          have := blocksize_pos
          simp only [List.length_cons] at h ⊢
          omega
        have hlen' : ((x :: xs).drop blocksize).length ≤ f' := by
          rw [List.length_drop]
          have := blocksize_pos
          simp only [List.length_cons] at h' ⊢
          omega
        rw [ih _ f' hlen hlen']

/-- The loop of `hash_file` satisfies its natural recursion equation. -/
theorem hash_file_eq (c : Bytes) :
    hash_file c =
      if c = [] then [] else c.take blocksize ++ sep ++ hash_file (c.drop blocksize) := by
  cases c with
  | nil => rfl
  | cons x xs =>
    simp only [hash_file, List.length_cons, if_neg (List.cons_ne_nil x xs)]
    rw [hashFileGo_succ]
    have hlen : ((x :: xs).drop blocksize).length ≤ xs.length := by
      rw [List.length_drop]
      have := blocksize_pos
      simp only [List.length_cons]
      omega
    rw [hashFileGo_congr xs.length _ ((x :: xs).drop blocksize).length hlen le_rfl]

theorem hash_file_length {c : Bytes} (h : c ≠ []) : 3 ≤ (hash_file c).length := by
  rw [hash_file_eq, if_neg h]
  have hc : 1 ≤ c.length := List.length_pos.mpr h
  have hbs := blocksize_pos
  simp only [List.length_append, List.length_take, sep, List.length_cons,
    List.length_nil]
  omega

theorem unhashFile_hash_file : ∀ (n : Nat) (c : Bytes), c.length ≤ n →
    unhashFile (hash_file c) = c := by
  intro n
  induction n with
  | zero =>
    intro c h
    have : c = [] := List.eq_nil_of_length_eq_zero (Nat.le_zero.mp h)
    subst this
    rw [show hash_file [] = [] from rfl, unhashFile]
    simp
  | succ n ih =>
    intro c hc
    by_cases hnil : c = []
    · subst hnil
      rw [show hash_file [] = [] from rfl, unhashFile]
      simp
    · rw [hash_file_eq, if_neg hnil]
      have hcpos : 1 ≤ c.length := List.length_pos.mpr hnil
      have hbs := blocksize_pos
      by_cases hsmall : c.length ≤ blocksize
      · have hdrop : c.drop blocksize = [] := List.drop_eq_nil_of_le hsmall
        rw [hdrop, show hash_file [] = [] from rfl, List.append_nil,
          List.take_of_length_le hsmall, unhashFile]
        have hlen : (c ++ sep).length = c.length + 2 := by simp [sep]
        rw [dif_pos (by rw [hlen]; omega)]
        rw [hlen, show c.length + 2 - 2 = c.length from by omega, List.take_left]
      · have hdropnil : c.drop blocksize ≠ [] := by
          intro hd
          have := congrArg List.length hd
          simp only [List.length_drop, List.length_nil] at this
          omega
        have htail := hash_file_length hdropnil
        have htake : (c.take blocksize).length = blocksize := by
          rw [List.length_take]
          omega
        have hps : (c.take blocksize ++ sep).length = blocksize + 2 := by
          simp [sep, htake]
        rw [unhashFile]
        have hslen :
            ¬ (c.take blocksize ++ sep ++ hash_file (c.drop blocksize)).length ≤
              blocksize + 2 := by
          simp only [List.length_append, htake, sep, List.length_cons, List.length_nil]
          omega
        rw [dif_neg hslen]
        have htk :
            (c.take blocksize ++ sep ++ hash_file (c.drop blocksize)).take blocksize =
              c.take blocksize := by
          rw [List.append_assoc, List.take_left' htake]
        have hdr :
            (c.take blocksize ++ sep ++ hash_file (c.drop blocksize)).drop
              (blocksize + 2) = hash_file (c.drop blocksize) := by
          rw [List.drop_left' hps]
        rw [htk, hdr, ih (c.drop blocksize) (by rw [List.length_drop]; omega),
          List.take_append_drop]

/-- The hash stream of a file determines the file's contents: SHA-256 input
streams of two files with different contents differ. -/
theorem hash_file_injective {c c' : Bytes} (h : hash_file c = hash_file c') : c = c' := by
  have h1 := unhashFile_hash_file c.length c le_rfl
  have h2 := unhashFile_hash_file c'.length c' le_rfl
  rw [← h1, ← h2, h]

@[simp] theorem hashEntries_nil : hashEntries [] = [] := rfl

theorem hashEntries_cons (e : Bytes × Bytes) (l : List (Bytes × Bytes)) :
    hashEntries (e :: l) = e.1 ++ sep ++ hash_file e.2 ++ hashEntries l := by
  simp [hashEntries]

theorem hashEntries_append (a b : List (Bytes × Bytes)) :
    hashEntries (a ++ b) = hashEntries a ++ hashEntries b :=
  List.flatMap_append a b _

@[simp] theorem hash_deps_nil (sub : Bytes → HRes) (acc : Bytes) :
    hash_deps sub [] acc = some (HashOut.ok acc) := rfl

@[simp] theorem hash_deps_cons_none (sub : Bytes → HRes) (rest : List (Option Bytes))
    (acc : Bytes) : hash_deps sub (none :: rest) acc = hash_deps sub rest acc := rfl

theorem hash_deps_cons_some (sub : Bytes → HRes) (name : Bytes)
    (rest : List (Option Bytes)) (acc : Bytes) :
    hash_deps sub (some name :: rest) acc =
      if name = [] then hash_deps sub rest acc
      else
        match sub name with
        | none => none
        | some HashOut.parseError => some HashOut.parseError
        | some (HashOut.ok s) => hash_deps sub rest (acc ++ s) := rfl

/-- Dependency entries whose `role` value is missing are skipped: the loop
computes the same result on the entry list with all `none` entries removed,
for every resolver-and-hasher `sub`. -/
theorem hash_deps_filter (sub : Bytes → HRes) :
    ∀ (entries : List (Option Bytes)) (acc : Bytes),
      hash_deps sub entries acc = hash_deps sub (entries.filter Option.isSome) acc := by
  intro entries
  induction entries with
  | nil => intro acc; rfl
  | cons e rest ih =>
    intro acc
    cases e with
    | none => simp [List.filter_cons, Option.isSome, ih]
    | some nm =>
      simp only [List.filter_cons, Option.isSome, if_pos]
      rw [hash_deps_cons_some, hash_deps_cons_some]
      by_cases hnm : nm = []
      · rw [if_pos hnm, if_pos hnm, ih]
      · rw [if_neg hnm, if_neg hnm]
        cases hs : sub nm with
        | none => rfl
        | some r =>
          cases r with
          | parseError => rfl
          | ok s => exact ih _

theorem hash_deps_mono {sub sub' : Bytes → HRes}
    (hs : ∀ n r, sub n = some r → sub' n = some r) :
    ∀ (entries : List (Option Bytes)) (acc : Bytes) (r : HashOut),
      hash_deps sub entries acc = some r → hash_deps sub' entries acc = some r := by
  intro entries
  induction entries with
  | nil => intro acc r h; exact h
  | cons e rest ih =>
    intro acc r h
    cases e with
    | none => exact ih acc r h
    | some nm =>
      rw [hash_deps_cons_some] at h ⊢
      by_cases hnm : nm = []
      · rw [if_pos hnm] at h ⊢
        exact ih _ _ h
      · rw [if_neg hnm] at h ⊢
        cases hsub : sub nm with
        | none => rw [hsub] at h; exact absurd h (by simp)
        | some r0 =>
          rw [hsub] at h
          rw [hs nm r0 hsub]
          cases r0 with
          | parseError => exact h
          | ok s => exact ih _ _ h

theorem hash_deps_isSome {sub : Bytes → HRes} :
    ∀ (entries : List (Option Bytes)) (acc : Bytes),
      (∀ name, some name ∈ entries → name ≠ [] → (sub name).isSome) →
      (hash_deps sub entries acc).isSome := by
  intro entries
  induction entries with
  | nil => intro acc _; simp
  | cons e rest ih =>
    intro acc h
    cases e with
    | none => exact ih acc (fun name hm hn => h name (List.mem_cons_of_mem _ hm) hn)
    | some nm =>
      rw [hash_deps_cons_some]
      by_cases hnm : nm = []
      · rw [if_pos hnm]
        exact ih acc (fun name hm hn => h name (List.mem_cons_of_mem _ hm) hn)
      · rw [if_neg hnm]
        have hnmsome := h nm (List.mem_cons_self _ _) hnm
        cases hsub : sub nm with
        | none => rw [hsub] at hnmsome; simp at hnmsome
        | some r0 =>
          cases r0 with
          | parseError => simp
          | ok s => exact ih _ (fun name hm hn => h name (List.mem_cons_of_mem _ hm) hn)

theorem hash_deps_ok_dep (sub : Bytes → HRes) :
    ∀ (entries : List (Option Bytes)) (acc d : Bytes),
      hash_deps sub entries acc = some (HashOut.ok d) →
      ∀ name, some name ∈ entries → name ≠ [] →
      ∃ d', sub name = some (HashOut.ok d') := by
  intro entries
  induction entries with
  | nil => intro acc d _ name hmem; simp at hmem
  | cons e rest ih =>
    intro acc d h name hmem hne
    cases e with
    | none =>
      rcases List.mem_cons.mp hmem with heq | hm
      · exact absurd heq (by simp)
      · exact ih acc d h name hm hne
    | some nm =>
      rw [hash_deps_cons_some] at h
      by_cases hnm : nm = []
      · rw [if_pos hnm] at h
        rcases List.mem_cons.mp hmem with heq | hm
        · have : name = nm := by injection heq
          exact absurd (this ▸ hnm) hne
        · exact ih acc d h name hm hne
      · rw [if_neg hnm] at h
        cases hsub : sub nm with
        | none => rw [hsub] at h; exact absurd h (by simp)
        | some r0 =>
          rw [hsub] at h
          cases r0 with
          | parseError => exact absurd h (by simp)
          | ok s =>
            rcases List.mem_cons.mp hmem with heq | hm
            · have : name = nm := by injection heq
              exact ⟨s, this ▸ hsub⟩
            · exact ih _ d h name hm hne

@[simp] theorem hash_role_zero (fs : FS) (p : Bytes) : hash_role fs 0 p = none := rfl

theorem hash_role_succ (fs : FS) (fuel : Nat) (p : Bytes) :
    hash_role fs (fuel + 1) p =
      match get_dependencies_for_role fs p with
      | MetaDoc.malformed => some HashOut.parseError
      | MetaDoc.parsed entries =>
          hash_deps (fun name => hash_role fs fuel (fs.resolve name)) entries
            (hash_dir p (fs.roleAt p)) := rfl

theorem hash_role_mono (fs : FS) :
    ∀ (fuel fuel' : Nat), fuel ≤ fuel' → ∀ (p : Bytes) (r : HashOut),
      hash_role fs fuel p = some r → hash_role fs fuel' p = some r := by
  intro fuel
  induction fuel with
  | zero => intro fuel' _ p r h; exact absurd h (by simp)
  | succ f ih =>
    intro fuel' hle p r h
    cases fuel' with
    | zero => omega
    | succ f' =>
      rw [hash_role_succ] at h ⊢
      cases hmeta : get_dependencies_for_role fs p with
      | malformed => rw [hmeta] at h; exact h
      | parsed entries =>
        rw [hmeta] at h
        exact hash_deps_mono (fun n r0 h0 => ih f' (by omega) _ r0 h0) entries _ r h

theorem hash_deps_exists_fuel (fs : FS) :
    ∀ (entries : List (Option Bytes)),
      (∀ name, some name ∈ entries → name ≠ [] →
        ∃ f, (hash_role fs f (fs.resolve name)).isSome) →
      ∃ F, ∀ name, some name ∈ entries → name ≠ [] →
        (hash_role fs F (fs.resolve name)).isSome := by
  intro entries
  induction entries with
  | nil => intro _; exact ⟨0, fun name hm => by simp at hm⟩
  | cons e rest ih =>
    intro h
    obtain ⟨F₁, hF₁⟩ := ih (fun name hm hn => h name (List.mem_cons_of_mem _ hm) hn)
    cases e with
    | none =>
      refine ⟨F₁, fun name hm hn => ?_⟩
      rcases List.mem_cons.mp hm with heq | hm'
      · exact absurd heq (by simp)
      · exact hF₁ name hm' hn
    | some nm =>
      by_cases hnm : nm = []
      · refine ⟨F₁, fun name hm hn => ?_⟩
        rcases List.mem_cons.mp hm with heq | hm'
        · have : name = nm := by injection heq
          exact absurd (this ▸ hnm) hn
        · exact hF₁ name hm' hn
      · obtain ⟨f₀, h₀⟩ := h nm (List.mem_cons_self _ _) hnm
        refine ⟨max f₀ F₁, fun name hm hn => ?_⟩
        rcases List.mem_cons.mp hm with heq | hm'
        · have hname : name = nm := by injection heq
          subst hname
          obtain ⟨r, hr⟩ := Option.isSome_iff_exists.mp h₀
          have := hash_role_mono fs f₀ (max f₀ F₁) (Nat.le_max_left _ _) _ r hr
          simp [this]
        · obtain ⟨r, hr⟩ := Option.isSome_iff_exists.mp (hF₁ name hm' hn)
          have := hash_role_mono fs F₁ (max f₀ F₁) (Nat.le_max_right _ _) _ r hr
          simp [this]

/-- When no infinite chain of dependency steps starts at `p` (the graph
reachable from `p` is well-founded, in particular acyclic), some fuel makes
`hash_role` finish. -/
theorem hash_role_terminates (fs : FS) (p : Bytes)
    (hacc : Acc (fun a b => DepStep fs b a) p) :
    ∃ fuel r, hash_role fs fuel p = some r := by
  induction hacc with
  | intro p ha ih =>
    cases hmeta : fs.metaAt p with
    | malformed =>
      exact ⟨1, HashOut.parseError, by
        rw [hash_role_succ]
        simp [get_dependencies_for_role, hmeta]⟩
    | parsed entries =>
      have hdeps : ∀ name, some name ∈ entries → name ≠ [] →
          ∃ f, (hash_role fs f (fs.resolve name)).isSome := by
        intro name hmem hne
        obtain ⟨fuel, r, hr⟩ := ih (fs.resolve name) ⟨entries, name, hmeta, hmem, hne, rfl⟩
        exact ⟨fuel, by simp [hr]⟩
      obtain ⟨F, hF⟩ := hash_deps_exists_fuel fs entries hdeps
      have hsome :
          (hash_deps (fun n => hash_role fs F (fs.resolve n)) entries
            (hash_dir p (fs.roleAt p))).isSome :=
        hash_deps_isSome entries _ hF
      obtain ⟨r, hr⟩ := Option.isSome_iff_exists.mp hsome
      refine ⟨F + 1, r, ?_⟩
      rw [hash_role_succ]
      simp only [get_dependencies_for_role, hmeta]
      exact hr

/-- If `hash_role` produced a digest at `p`, every dependency target of `p`
produced a digest with strictly less fuel. -/
theorem hash_role_ok_dep (fs : FS) {fuel : Nat} {p q : Bytes} {d : Bytes}
    (h : hash_role fs fuel p = some (HashOut.ok d)) (hstep : DepStep fs p q) :
    ∃ fuel' d', fuel' < fuel ∧ hash_role fs fuel' q = some (HashOut.ok d') := by
  cases fuel with
  | zero => exact absurd h (by simp)
  | succ f =>
    obtain ⟨entries, name, hmeta, hmem, hne, hres⟩ := hstep
    rw [hash_role_succ] at h
    rw [show get_dependencies_for_role fs p = MetaDoc.parsed entries from hmeta] at h
    obtain ⟨d', hd'⟩ := hash_deps_ok_dep _ entries _ d h name hmem hne
    exact ⟨f, d', Nat.lt_succ_self f, hres ▸ hd'⟩

theorem hash_role_ok_chain (fs : FS) {a b : Bytes}
    (h : Relation.TransGen (DepStep fs) a b) :
    ∀ (fuel : Nat) (d : Bytes), hash_role fs fuel a = some (HashOut.ok d) →
      ∃ fuel' d', fuel' < fuel ∧ hash_role fs fuel' b = some (HashOut.ok d') := by
  induction h with
  | single hstep => intro fuel d h; exact hash_role_ok_dep fs h hstep
  | tail htg hstep ih =>
    intro fuel d h
    obtain ⟨f₁, d₁, hf₁, h₁⟩ := ih fuel d h
    obtain ⟨f₂, d₂, hf₂, h₂⟩ := hash_role_ok_dep fs h₁ hstep
    exact ⟨f₂, d₂, Nat.lt_trans hf₂ hf₁, h₂⟩

/-- A role reachable from itself through dependency declarations never
yields a digest, whatever the fuel: the unguarded recursion never returns
normally. -/
theorem hash_role_cycle (fs : FS) {p : Bytes}
    (hcyc : Relation.TransGen (DepStep fs) p p) :
    ∀ (fuel : Nat) (d : Bytes), hash_role fs fuel p ≠ some (HashOut.ok d) := by
  intro fuel
  induction fuel using Nat.strong_induction_on with
  | _ fuel ih =>
    intro d h
    obtain ⟨f', d', hlt, h'⟩ := hash_role_ok_chain fs hcyc fuel d h
    exact ih f' hlt d' h'

theorem hashEntries_pair_cons (q c : Bytes) (l : List (Bytes × Bytes)) :
    hashEntries ((q, c) :: l) = q ++ sep ++ hash_file c ++ hashEntries l := by
  simp [hashEntries]

/-- Evaluation of the parameterised one-dependency world: the fingerprint
of the root of `fsDep c` is the dependency file's path and contents stream
(the root's own tree is empty). -/
theorem fsDep_eval (c : Bytes) :
    get_role_fingerprint (fsDep c) 2 ['r'] =
      some (HashOut.ok (['/', 'd', '/', 'f'] ++ sep ++ hash_file c)) := by
  have h1 : resolve_role_to_path (fsDep c) ['r'] = ['/', 'r'] := rfl
  have h2 : get_dependencies_for_role (fsDep c) ['/', 'r'] =
      MetaDoc.parsed [some ['d']] := rfl
  have h3 : hash_role (fsDep c) 1 ((fsDep c).resolve ['d']) =
      some (HashOut.ok (hash_dir ['/', 'd'] ((fsDep c).roleAt ['/', 'd']))) := by
    rw [show (1 : Nat) = 0 + 1 from rfl, hash_role_succ]
    rw [show get_dependencies_for_role (fsDep c) ((fsDep c).resolve ['d']) =
      MetaDoc.parsed [] from rfl]
    rfl
  rw [get_role_fingerprint, h1, show (2 : Nat) = 1 + 1 from rfl, hash_role_succ, h2]
  show hash_deps (fun name => hash_role (fsDep c) 1 ((fsDep c).resolve name))
      [some ['d']] (hash_dir ['/', 'r'] ((fsDep c).roleAt ['/', 'r'])) =
    some (HashOut.ok (['/', 'd', '/', 'f'] ++ sep ++ hash_file c))
  rw [hash_deps_cons_some, if_neg (by decide : ¬ (['d'] : Bytes) = [])]
  rw [h3]
  simp [hash_deps, hash_dir, hashEntries, walk, walkDirs, pathJoin, fsDep]

@[simp] theorem lookupMeta_nil (k : Bytes) : lookupMeta [] k = none := rfl

theorem lookupMeta_cons (k' : Bytes) (v : PyVal) (rest : List (Bytes × PyVal))
    (k : Bytes) :
    lookupMeta ((k', v) :: rest) k = if k' = k then some v else lookupMeta rest k := rfl

/-- Looking up a key of the translation table is unaffected by first
filtering the metadata down to the table's keys. -/
theorem lookupMeta_filter (keys : List Bytes) :
    ∀ (m : List (Bytes × PyVal)) (k : Bytes), k ∈ keys →
      lookupMeta (m.filter (fun kv => decide (kv.1 ∈ keys))) k = lookupMeta m k := by
  intro m
  induction m with
  | nil => intro k _; rfl
  | cons e rest ih =>
    obtain ⟨k', v⟩ := e
    intro k hk
    rw [List.filter_cons]
    by_cases he : k' ∈ keys
    · rw [if_pos (by simpa using he)]
      rw [lookupMeta_cons, lookupMeta_cons]
      by_cases hek : k' = k
      · rw [if_pos hek, if_pos hek]
      · rw [if_neg hek, if_neg hek]
        exact ih k hk
    · rw [if_neg (by simpa using he)]
      have hek : k' ≠ k := fun h => he (h ▸ hk)
      rw [ih k hk, lookupMeta_cons, if_neg hek]

theorem fromMeta_none {m : List (Bytes × PyVal)} {k : Bytes}
    (translator : PyVal → PyVal) (dflt : PyVal) (h : lookupMeta m k = none) :
    fromMeta m k translator dflt = dflt := by
  unfold fromMeta
  rw [h]

/-! ## Claims -/

/-- C1 (amended): the fingerprint of a role is a function of its resolved
directory path alone (given the filesystem), so two roles with identical
trees and dependency sets produce identical fingerprints provided they
resolve to the same absolute directory; the digest hashes absolute file
paths, so identical trees at different absolute locations hash differently
(see the counterexample). -/
theorem C1_fingerprint_same_resolved_path (fs : FS) (fuel : Nat) (a b : Bytes)
    (h : resolve_role_to_path fs a = resolve_role_to_path fs b) :
    get_role_fingerprint fs fuel a = get_role_fingerprint fs fuel b := by
  unfold get_role_fingerprint
  rw [h]

theorem C1_fingerprint_same_resolved_path_witness :
    resolve_role_to_path fsLoc ['b'] = resolve_role_to_path fsLoc ['c'] ∧
      get_role_fingerprint fsLoc 1 ['b'] = get_role_fingerprint fsLoc 1 ['c'] :=
  ⟨by decide, C1_fingerprint_same_resolved_path fsLoc 1 ['b'] ['c'] (by decide)⟩

/-- C1 is false as stated: the two roles `a` and `b` of `fsLoc` have the
same tree (`treeX`) and the same (empty) dependency set, but reside at the
different absolute locations `/1` and `/2`, and their fingerprints differ
because `hash_dir` feeds the absolute file path into the hash. -/
theorem C1_counterexample :
    fsLoc.roleAt (resolve_role_to_path fsLoc ['a']) =
        fsLoc.roleAt (resolve_role_to_path fsLoc ['b']) ∧
      get_dependencies_for_role fsLoc (resolve_role_to_path fsLoc ['a']) =
        MetaDoc.parsed [] ∧
      get_dependencies_for_role fsLoc (resolve_role_to_path fsLoc ['b']) =
        MetaDoc.parsed [] ∧
      resolve_role_to_path fsLoc ['a'] ≠ resolve_role_to_path fsLoc ['b'] ∧
      get_role_fingerprint fsLoc 1 ['a'] ≠ get_role_fingerprint fsLoc 1 ['b'] :=
  ⟨rfl, rfl, rfl, by decide, by decide⟩

/-- C3: the claim describes the intended behaviour (a deterministic digest
independent of sibling enumeration order), but `hash_dir` feeds files to
the hash in the raw `os.walk` order without sorting: the same directory
contents (a permutation of the same two files) produce different digests
under the two enumeration orders. -/
theorem C3_walk_order_changes_digest :
    ([(['a'], ['1']), (['b'], ['2'])] : List (Bytes × Bytes)).Perm
        [(['b'], ['2']), (['a'], ['1'])] ∧
      hash_dir ['/', 'r'] (FSTree.node [(['a'], ['1']), (['b'], ['2'])] []) ≠
        hash_dir ['/', 'r'] (FSTree.node [(['b'], ['2']), (['a'], ['1'])] []) :=
  ⟨by decide, by decide⟩

/-- C5: a role whose dependency document declares no dependencies
fingerprints to exactly the digest of its own file tree (paths and block
contents, each followed by the separator), with nothing else hashed. -/
theorem C5_no_deps_hashes_only_tree (fs : FS) (fuel : Nat) (role_name : Bytes)
    (h : get_dependencies_for_role fs (resolve_role_to_path fs role_name) =
      MetaDoc.parsed []) :
    get_role_fingerprint fs (fuel + 1) role_name =
      some (HashOut.ok (hash_dir (resolve_role_to_path fs role_name)
        (fs.roleAt (resolve_role_to_path fs role_name)))) := by
  unfold get_role_fingerprint
  rw [hash_role_succ, h]
  rfl

theorem C5_no_deps_hashes_only_tree_witness :
    get_dependencies_for_role fsLoc (resolve_role_to_path fsLoc ['a']) =
        MetaDoc.parsed [] ∧
      get_role_fingerprint fsLoc (0 + 1) ['a'] =
        some (HashOut.ok (hash_dir (resolve_role_to_path fsLoc ['a'])
          (fsLoc.roleAt (resolve_role_to_path fsLoc ['a'])))) :=
  ⟨rfl, C5_no_deps_hashes_only_tree fsLoc 0 ['a'] rfl⟩

/-- C8: a malformed dependency document makes the fingerprint computation
fail with the parse error, and no digest is ever produced at any fuel. -/
theorem C8_parse_error_no_fingerprint (fs : FS) (fuel : Nat) (role_name : Bytes)
    (h : get_dependencies_for_role fs (resolve_role_to_path fs role_name) =
      MetaDoc.malformed) :
    get_role_fingerprint fs (fuel + 1) role_name = some HashOut.parseError ∧
      ∀ (fuel' : Nat) (d : Bytes),
        get_role_fingerprint fs fuel' role_name ≠ some (HashOut.ok d) := by
  constructor
  · unfold get_role_fingerprint
    rw [hash_role_succ, h]
  · intro fuel' d
    cases fuel' with
    | zero => simp [get_role_fingerprint]
    | succ f =>
      unfold get_role_fingerprint
      rw [hash_role_succ, h]
      simp

theorem C8_parse_error_no_fingerprint_witness :
    get_dependencies_for_role fsBad (resolve_role_to_path fsBad ['a']) =
        MetaDoc.malformed ∧
      get_role_fingerprint fsBad (0 + 1) ['a'] = some HashOut.parseError ∧
      get_role_fingerprint fsBad 7 ['a'] ≠ some (HashOut.ok []) :=
  ⟨rfl, (C8_parse_error_no_fingerprint fsBad 0 ['a'] rfl).1,
    (C8_parse_error_no_fingerprint fsBad 0 ['a'] rfl).2 7 []⟩

/-- C9: dependency entries with no `role` name are skipped — the loop
computes the same digest as on the entry list with the nameless entries
filtered out, for every resolver and every accumulated stream — while a
named (nonempty) entry is resolved and recursively hashed into the digest. -/
theorem C9_nameless_entries_skipped :
    (∀ (sub : Bytes → HRes) (entries : List (Option Bytes)) (acc : Bytes),
        hash_deps sub entries acc =
          hash_deps sub (entries.filter Option.isSome) acc) ∧
      ∀ (sub : Bytes → HRes) (name : Bytes) (rest : List (Option Bytes)) (acc : Bytes),
        name ≠ [] →
        hash_deps sub (some name :: rest) acc =
          match sub name with
          | none => none
          | some HashOut.parseError => some HashOut.parseError
          | some (HashOut.ok s) => hash_deps sub rest (acc ++ s) := by
  constructor
  · exact hash_deps_filter
  · intro sub name rest acc hne
    rw [hash_deps_cons_some, if_neg hne]

theorem C9_nameless_entries_skipped_witness :
    hash_deps (fun _ => none) [none, some ['a'], none] [] =
        hash_deps (fun _ => none) [some ['a']] [] ∧
      hash_deps (fun _ => some (HashOut.ok ['z'])) [some ['a']] [] =
        hash_deps (fun _ => some (HashOut.ok ['z'])) [] ([] ++ ['z']) :=
  ⟨by
      have h := C9_nameless_entries_skipped.1 (fun _ => none) [none, some ['a'], none] []
      simpa using h,
    C9_nameless_entries_skipped.2 (fun _ => some (HashOut.ok ['z'])) ['a'] [] []
      (by decide)⟩

/-- C10: when the requested file does not exist at the resolved role path,
`get_content_from_role` (and its two wrappers) returns an empty ordered
mapping without error, whatever the parser would have done. -/
theorem C10_missing_file_empty_mapping :
    (∀ (fs : ContentFS) (role_name relative_path : Bytes),
        fs.fileExists (pathJoin (fs.resolve role_name) relative_path) = false →
        get_content_from_role fs role_name relative_path = Except.ok []) ∧
      (∀ (fs : ContentFS) (role_name : Bytes),
        fs.fileExists (pathJoin (fs.resolve role_name)
            (pathJoin ("meta".toList) ("container.yml".toList))) = false →
        get_metadata_from_role fs role_name = Except.ok []) ∧
      ∀ (fs : ContentFS) (role_name : Bytes),
        fs.fileExists (pathJoin (fs.resolve role_name)
            (pathJoin ("defaults".toList) ("main.yml".toList))) = false →
        get_defaults_from_role fs role_name = Except.ok [] := by
  have h1 : ∀ (fs : ContentFS) (role_name relative_path : Bytes),
      fs.fileExists (pathJoin (fs.resolve role_name) relative_path) = false →
      get_content_from_role fs role_name relative_path = Except.ok [] := by
    intro fs role rel h
    simp [get_content_from_role, h]
  exact ⟨h1, fun fs role h => h1 fs role _ h, fun fs role h => h1 fs role _ h⟩

theorem C10_missing_file_empty_mapping_witness :
    cfsNone.fileExists (pathJoin (cfsNone.resolve ['a']) ['m']) = false ∧
      get_content_from_role cfsNone ['a'] ['m'] = Except.ok [] ∧
      get_metadata_from_role cfsNone ['a'] = Except.ok [] ∧
      get_defaults_from_role cfsNone ['a'] = Except.ok [] :=
  ⟨rfl, C10_missing_file_empty_mapping.1 cfsNone ['a'] ['m'] rfl,
    C10_missing_file_empty_mapping.2.1 cfsNone ['a'] rfl,
    C10_missing_file_empty_mapping.2.2 cfsNone ['a'] rfl⟩

/-- C2 (amended): the fingerprint is sensitive to the order of dependency
entries (reordering two dependencies with different contents changes the
digest, see the last conjunct and the counterexample), and the digest
changes whenever one file's byte contents change (same path, everything
else fixed), whenever a file is added or removed, and whenever a
dependency's file contents change. -/
theorem C2_digest_sensitivity :
    (∀ (pre suf : List (Bytes × Bytes)) (q c c' : Bytes), c ≠ c' →
        hashEntries (pre ++ (q, c) :: suf) ≠ hashEntries (pre ++ (q, c') :: suf)) ∧
      (∀ (pre suf : List (Bytes × Bytes)) (e : Bytes × Bytes),
        hashEntries (pre ++ suf) ≠ hashEntries (pre ++ e :: suf)) ∧
      (∀ c c' : Bytes, c ≠ c' →
        get_role_fingerprint (fsDep c) 2 ['r'] ≠
          get_role_fingerprint (fsDep c') 2 ['r']) ∧
      get_role_fingerprint fsOrd1 2 ['r'] ≠ get_role_fingerprint fsOrd2 2 ['r'] := by
  refine ⟨?_, ?_, ?_, by decide⟩
  · intro pre suf q c c' hne heq
    apply hne
    apply hash_file_injective
    rw [hashEntries_append, hashEntries_append, hashEntries_pair_cons,
      hashEntries_pair_cons] at heq
    simp only [List.append_assoc] at heq
    have h2 := List.append_cancel_left heq
    have h3 := List.append_cancel_left h2
    have h4 := List.append_cancel_left h3
    exact List.append_cancel_right h4
  · intro pre suf e heq
    have hlen := congrArg List.length heq
    rw [hashEntries_append, hashEntries_append, hashEntries_cons] at hlen
    simp only [List.length_append, sep, List.length_cons, List.length_nil] at hlen
    omega
  · intro c c' hne heq
    apply hne
    apply hash_file_injective
    rw [fsDep_eval, fsDep_eval] at heq
    have h1 := Option.some.inj heq
    have h2 : (['/', 'd', '/', 'f'] : Bytes) ++ sep ++ hash_file c =
        ['/', 'd', '/', 'f'] ++ sep ++ hash_file c' := by injection h1
    simp only [List.append_assoc] at h2
    exact List.append_cancel_left (List.append_cancel_left h2)

theorem C2_digest_sensitivity_witness :
    hashEntries [(['p'], ['a'])] ≠ hashEntries [(['p'], ['b'])] ∧
      hashEntries [] ≠ hashEntries [(['p'], ['a'])] ∧
      get_role_fingerprint (fsDep ['x']) 2 ['r'] ≠
        get_role_fingerprint (fsDep ['y']) 2 ['r'] :=
  ⟨C2_digest_sensitivity.1 [] [] ['p'] ['a'] ['b'] (by decide),
    C2_digest_sensitivity.2.1 [] [] (['p'], ['a']),
    C2_digest_sensitivity.2.2.1 ['x'] ['y'] (by decide)⟩

/-- C2 is false as stated: `fsOrd1` and `fsOrd2` have identical trees and
resolver, and the root's dependency lists are permutations of each other
(the same dependency set `{a, b}`), yet reordering the two entries changes
the fingerprint, because each dependency is hashed inline in list order. -/
theorem C2_counterexample :
    fsOrd1.roleAt = fsOrd2.roleAt ∧
      fsOrd1.resolve = fsOrd2.resolve ∧
      get_dependencies_for_role fsOrd1 ['/', 'r'] =
        MetaDoc.parsed [some ['a'], some ['b']] ∧
      get_dependencies_for_role fsOrd2 ['/', 'r'] =
        MetaDoc.parsed [some ['b'], some ['a']] ∧
      ([some ['a'], some ['b']] : List (Option Bytes)).Perm
        [some ['b'], some ['a']] ∧
      get_role_fingerprint fsOrd1 2 ['r'] ≠ get_role_fingerprint fsOrd2 2 ['r'] :=
  ⟨rfl, rfl, by decide, by decide, by decide, by decide⟩

/-- C4: when no infinite dependency chain leaves the resolved role (the
transitive dependency graph is acyclic, rendered as accessibility), some
fuel makes `get_role_fingerprint` terminate with a result; when the role is
reachable from itself through dependency declarations, the unguarded
recursion never produces a digest, whatever the fuel. -/
theorem C4_acyclic_terminates_cyclic_diverges :
    (∀ (fs : FS) (role_name : Bytes),
        Acc (fun a b => DepStep fs b a) (resolve_role_to_path fs role_name) →
        ∃ fuel r, get_role_fingerprint fs fuel role_name = some r) ∧
      ∀ (fs : FS) (role_name : Bytes),
        Relation.TransGen (DepStep fs) (resolve_role_to_path fs role_name)
          (resolve_role_to_path fs role_name) →
        ∀ (fuel : Nat) (d : Bytes),
          get_role_fingerprint fs fuel role_name ≠ some (HashOut.ok d) := by
  constructor
  · intro fs role_name hacc
    exact hash_role_terminates fs _ hacc
  · intro fs role_name hcyc fuel d
    exact hash_role_cycle fs hcyc fuel d

theorem C4_acyclic_terminates_cyclic_diverges_witness :
    (∃ fuel r, get_role_fingerprint fsAcyc fuel ['a'] = some r) ∧
      get_role_fingerprint fsCyc 5 ['a'] ≠ some (HashOut.ok []) := by
  have hnostep : ∀ p q : Bytes, ¬ DepStep fsAcyc p q := by
    rintro p q ⟨entries, name, hmeta, hmem, hne, hres⟩
    have hpe : MetaDoc.parsed [] = MetaDoc.parsed entries := hmeta
    have hent : ([] : List (Option Bytes)) = entries := by injection hpe
    rw [← hent] at hmem
    simp at hmem
  constructor
  · exact C4_acyclic_terminates_cyclic_diverges.1 fsAcyc ['a']
      (Acc.intro _ (fun y hy => absurd hy (hnostep _ _)))
  · exact C4_acyclic_terminates_cyclic_diverges.2 fsCyc ['a']
      (Relation.TransGen.single
        ⟨[some ['c']], ['c'], rfl, List.mem_cons_self _ _, by decide, rfl⟩) 5 []

/-- C6: a port range spec expands to one exposed-port key per port of the
inclusive range, and a `host:container` spec only uses the part after the
last colon (shown both directly on `ports_to_exposed_ports` and through
`metadata_to_image_config`). -/
theorem C6_port_range_expansion :
    ports_to_exposed_ports ["8080-8082".toList] =
        ["8080".toList, "8081".toList, "8082".toList] ∧
      (metadata_to_image_config
          [("ports".toList, PyVal.pylist ["8080-8082".toList])]).ExposedPorts =
        PyVal.pyset ["8080".toList, "8081".toList, "8082".toList] ∧
      ports_to_exposed_ports ["9000:8080-8082".toList] =
        ["8080".toList, "8081".toList, "8082".toList] ∧
      ports_to_exposed_ports ["5000:6000".toList] = ["6000".toList] :=
  ⟨by decide, by decide, by decide, by decide⟩

/-- C7 (amended): source keys outside the static translation table never
affect the result (filtering them out first gives the same config), and
every target field whose source key is absent keeps its documented default
— the empty string for `Hostname`, `Domainname`, `User`, `Cmd` and
`WorkingDir`, the empty mapping for `ExposedPorts`, `Volumes` and `Labels`,
the empty list for `Env` and `OnBuild`, and `None` (not an empty value) for
`Entrypoint`. -/
theorem C7_unrecognized_ignored_defaults_kept :
    (∀ metadata : List (Bytes × PyVal),
        metadata_to_image_config metadata =
          metadata_to_image_config
            (metadata.filter (fun kv => decide (kv.1 ∈ translatorKeys)))) ∧
      ∀ metadata : List (Bytes × PyVal),
        (lookupMeta metadata ("hostname".toList) = none →
          (metadata_to_image_config metadata).Hostname = PyVal.pystr []) ∧
        (lookupMeta metadata ("domainname".toList) = none →
          (metadata_to_image_config metadata).Domainname = PyVal.pystr []) ∧
        (lookupMeta metadata ("user".toList) = none →
          (metadata_to_image_config metadata).User = PyVal.pystr []) ∧
        (lookupMeta metadata ("ports".toList) = none →
          (metadata_to_image_config metadata).ExposedPorts = PyVal.pyset []) ∧
        (lookupMeta metadata ("environment".toList) = none →
          (metadata_to_image_config metadata).Env = PyVal.pylist []) ∧
        (lookupMeta metadata ("command".toList) = none →
          (metadata_to_image_config metadata).Cmd = PyVal.pystr []) ∧
        (lookupMeta metadata ("working_dir".toList) = none →
          (metadata_to_image_config metadata).WorkingDir = PyVal.pystr []) ∧
        (lookupMeta metadata ("entrypoint".toList) = none →
          (metadata_to_image_config metadata).Entrypoint = PyVal.pynone) ∧
        (lookupMeta metadata ("volumes".toList) = none →
          (metadata_to_image_config metadata).Volumes = PyVal.pyset []) ∧
        (lookupMeta metadata ("labels".toList) = none →
          (metadata_to_image_config metadata).Labels = PyVal.pydict []) ∧
        (lookupMeta metadata ("onbuild".toList) = none →
          (metadata_to_image_config metadata).OnBuild = PyVal.pylist []) := by
  constructor
  · intro m
    have h : ∀ k : Bytes, k ∈ translatorKeys →
        lookupMeta (m.filter (fun kv => decide (kv.1 ∈ translatorKeys))) k =
          lookupMeta m k :=
      fun k hk => lookupMeta_filter translatorKeys m k hk
    unfold metadata_to_image_config fromMeta
    rw [h ("hostname".toList) (by decide), h ("domainname".toList) (by decide),
      h ("user".toList) (by decide), h ("ports".toList) (by decide),
      h ("environment".toList) (by decide), h ("command".toList) (by decide),
      h ("working_dir".toList) (by decide), h ("entrypoint".toList) (by decide),
      h ("volumes".toList) (by decide), h ("labels".toList) (by decide),
      h ("onbuild".toList) (by decide)]
  · intro m
    refine ⟨fun h => ?_, fun h => ?_, fun h => ?_, fun h => ?_, fun h => ?_,
      fun h => ?_, fun h => ?_, fun h => ?_, fun h => ?_, fun h => ?_, fun h => ?_⟩ <;>
      simp only [metadata_to_image_config] <;> exact fromMeta_none _ _ h

theorem C7_unrecognized_ignored_defaults_kept_witness :
    metadata_to_image_config mEx =
        metadata_to_image_config
          (mEx.filter (fun kv => decide (kv.1 ∈ translatorKeys))) ∧
      (metadata_to_image_config mEx).Hostname = PyVal.pystr [] ∧
      (metadata_to_image_config mEx).Domainname = PyVal.pystr [] ∧
      (metadata_to_image_config mEx).User = PyVal.pystr [] ∧
      (metadata_to_image_config mEx).ExposedPorts = PyVal.pyset [] ∧
      (metadata_to_image_config mEx).Env = PyVal.pylist [] ∧
      (metadata_to_image_config mEx).Cmd = PyVal.pystr [] ∧
      (metadata_to_image_config mEx).WorkingDir = PyVal.pystr [] ∧
      (metadata_to_image_config mEx).Entrypoint = PyVal.pynone ∧
      (metadata_to_image_config mEx).Volumes = PyVal.pyset [] ∧
      (metadata_to_image_config mEx).Labels = PyVal.pydict [] ∧
      (metadata_to_image_config mEx).OnBuild = PyVal.pylist [] := by
  have h := C7_unrecognized_ignored_defaults_kept.2 mEx
  exact ⟨C7_unrecognized_ignored_defaults_kept.1 mEx, h.1 (by decide),
    h.2.1 (by decide), h.2.2.1 (by decide), h.2.2.2.1 (by decide),
    h.2.2.2.2.1 (by decide), h.2.2.2.2.2.1 (by decide),
    h.2.2.2.2.2.2.1 (by decide), h.2.2.2.2.2.2.2.1 (by decide),
    h.2.2.2.2.2.2.2.2.1 (by decide), h.2.2.2.2.2.2.2.2.2.1 (by decide),
    h.2.2.2.2.2.2.2.2.2.2 (by decide)⟩

/-- C7 is false only in its characterization of the defaults: with empty
metadata the `Entrypoint` field keeps the documented default `None`, which
is not an empty string, an empty list, or an empty mapping. -/
theorem C7_counterexample :
    (metadata_to_image_config []).Entrypoint = PyVal.pynone ∧
      PyVal.pynone ≠ PyVal.pystr [] ∧
      PyVal.pynone ≠ PyVal.pylist [] ∧
      PyVal.pynone ≠ PyVal.pydict [] ∧
      PyVal.pynone ≠ PyVal.pyset [] :=
  ⟨rfl, by decide, by decide, by decide, by decide⟩
